import Mathlib

/-!
Verification development for the agent-vis repository
(`frontend/src/fs_model.rs`, `frontend/src/agent.rs`, `frontend/src/main.rs`).

The Rust `HashMap`s are embedded as association lists with unique keys
(`lookupA` / `insertA` / `eraseA` below match `HashMap::get`, `insert`,
`remove`); `PathBuf` is embedded as its list of components, with
`Path::parent` dropping the last component; `Vec` is `List`; `f32`
timers/progress are embedded as `ℚ` (the claims under study concern the
structure of the transitions, not floating-point rounding).
-/

section AssocMap

variable {κ : Type} {α : Type} [DecidableEq κ]

/-- Embedding of `HashMap::get`: first binding of the key, if any. -/
def lookupA : List (κ × α) → κ → Option α
  | [], _ => none
  | (q, v) :: rest, k => if q = k then some v else lookupA rest k

/-- Embedding of `HashMap::insert`: replace the binding of the key if present,
append it otherwise. -/
def insertA : List (κ × α) → κ → α → List (κ × α)
  | [], k, v => [(k, v)]
  | (q, w) :: rest, k, v => if q = k then (k, v) :: rest else (q, w) :: insertA rest k v

/-- Embedding of `HashMap::remove` (drops the binding of the key). -/
def eraseA : List (κ × α) → κ → List (κ × α)
  | [], _ => []
  | (q, w) :: rest, k => if q = k then rest else (q, w) :: eraseA rest k

/-- Keys of an association list. -/
def keysA (l : List (κ × α)) : List κ := l.map Prod.fst

theorem lookupA_insertA_self (l : List (κ × α)) (k : κ) (v : α) :
    lookupA (insertA l k v) k = some v := by
  induction l with
  | nil => simp [insertA, lookupA]
  | cons hd tl ih =>
    obtain ⟨q, w⟩ := hd
    by_cases h : q = k <;> simp [insertA, lookupA, h, ih]

theorem lookupA_insertA_ne (l : List (κ × α)) (k k' : κ) (v : α) (h : k' ≠ k) :
    lookupA (insertA l k v) k' = lookupA l k' := by
  induction l with
  | nil => simp [insertA, lookupA, Ne.symm h]
  | cons hd tl ih =>
    obtain ⟨q, w⟩ := hd
    by_cases hq : q = k
    · subst hq
      simp [insertA, lookupA, Ne.symm h]
    · by_cases hq' : q = k' <;> simp [insertA, lookupA, hq, hq', h, ih]

theorem lookupA_eraseA_ne (l : List (κ × α)) (k k' : κ) (h : k' ≠ k) :
    lookupA (eraseA l k) k' = lookupA l k' := by
  induction l with
  | nil => simp [eraseA]
  | cons hd tl ih =>
    obtain ⟨q, w⟩ := hd
    by_cases hq : q = k
    · subst hq
      simp [eraseA, lookupA, Ne.symm h]
    · by_cases hq' : q = k' <;> simp [eraseA, lookupA, hq, hq', h, ih]

theorem lookupA_eq_none_of_not_mem (l : List (κ × α)) (k : κ)
    (h : k ∉ keysA l) : lookupA l k = none := by
  induction l with
  | nil => simp [lookupA]
  | cons hd tl ih =>
    obtain ⟨q, w⟩ := hd
    simp only [keysA, List.map_cons, List.mem_cons] at h
    push_neg at h
    have hqk : ¬ q = k := fun he => h.1 he.symm
    simp only [lookupA, if_neg hqk]
    exact ih h.2

theorem lookupA_eraseA_self (l : List (κ × α)) (k : κ) (hnd : (keysA l).Nodup) :
    lookupA (eraseA l k) k = none := by
  induction l with
  | nil => simp [eraseA, lookupA]
  | cons hd tl ih =>
    obtain ⟨q, w⟩ := hd
    simp only [keysA, List.map_cons, List.nodup_cons] at hnd
    by_cases hq : q = k
    · subst hq
      simp only [eraseA, if_pos rfl]
      exact lookupA_eq_none_of_not_mem tl q hnd.1
    · simp only [eraseA, if_neg hq, lookupA, if_neg hq]
      exact ih hnd.2

theorem keysA_eraseA_sublist (l : List (κ × α)) (k : κ) :
    (keysA (eraseA l k)).Sublist (keysA l) := by
  induction l with
  | nil => simp [eraseA]
  | cons hd tl ih =>
    obtain ⟨q, w⟩ := hd
    by_cases hq : q = k
    · simp only [eraseA, if_pos hq, keysA, List.map_cons]
      exact (List.sublist_cons_self _ _)
    · simp only [eraseA, if_neg hq, keysA, List.map_cons]
      exact List.Sublist.cons₂ _ ih

theorem keysA_eraseA_nodup (l : List (κ × α)) (k : κ) (hnd : (keysA l).Nodup) :
    (keysA (eraseA l k)).Nodup :=
  (keysA_eraseA_sublist l k).nodup hnd

theorem insertA_of_absent (l : List (κ × α)) (k : κ) (v : α)
    (h : lookupA l k = none) : insertA l k v = l ++ [(k, v)] := by
  induction l with
  | nil => simp [insertA]
  | cons hd tl ih =>
    obtain ⟨q, w⟩ := hd
    by_cases hq : q = k
    · simp [lookupA, hq] at h
    · simp only [lookupA, if_neg hq] at h
      simp [insertA, hq, ih h]

theorem lookupA_append_left (l m : List (κ × α)) (k : κ) (v : α)
    (h : lookupA l k = some v) : lookupA (l ++ m) k = some v := by
  induction l with
  | nil => simp [lookupA] at h
  | cons hd tl ih =>
    obtain ⟨q, w⟩ := hd
    by_cases hq : q = k <;> simp_all [lookupA, hq]

theorem lookupA_append_right (l m : List (κ × α)) (k : κ)
    (h : lookupA l k = none) : lookupA (l ++ m) k = lookupA m k := by
  induction l with
  | nil => simp
  | cons hd tl ih =>
    obtain ⟨q, w⟩ := hd
    by_cases hq : q = k <;> simp_all [lookupA, hq]

theorem lookupA_mem_keysA (l : List (κ × α)) (k : κ) (v : α)
    (h : lookupA l k = some v) : k ∈ keysA l := by
  induction l with
  | nil => simp [lookupA] at h
  | cons hd tl ih =>
    obtain ⟨q, w⟩ := hd
    by_cases hq : q = k
    · simp [keysA, hq]
    · simp only [lookupA, if_neg hq] at h
      simp [keysA] at ih ⊢
      exact Or.inr (ih h)

theorem lookupA_isSome_of_mem_keysA (l : List (κ × α)) (k : κ)
    (h : k ∈ keysA l) : (lookupA l k).isSome := by
  induction l with
  | nil => simp [keysA] at h
  | cons hd tl ih =>
    obtain ⟨q, w⟩ := hd
    by_cases hq : q = k
    · simp [lookupA, hq]
    · simp only [keysA, List.map_cons, List.mem_cons] at h
      rcases h with h | h
      · exact absurd h.symm hq
      · simpa [lookupA, hq] using ih h

end AssocMap

/-! ## File-system model (`frontend/src/fs_model.rs`) -/

/-- Embedding of `PathBuf` as its list of components. -/
abbrev FsPath := List String

/-- Embedding of `Path::parent`: drop the last component; `None` on the empty
path. -/
def parentPath (p : FsPath) : Option FsPath :=
  if p = [] then none else some p.dropLast

/-- Embedding of `Path::file_name` (the last component). -/
def fileName (p : FsPath) : Option String := p.getLast?

/-- Embedding of `FileNode` (fs_model.rs lines 46-54). -/
structure FileNode where
  path : FsPath
  name : String
  is_dir : Bool
  depth : Nat
  children : List Nat
  parent : Option Nat
  deriving DecidableEq, Repr

/-- Embedding of `FileSystemModel` (fs_model.rs lines 56-61). -/
structure FileSystemModel where
  nodes : List FileNode
  path_to_index : List (FsPath × Nat)
  root : Option Nat
  deriving DecidableEq, Repr

/-- Embedding of `FileSystemModel::new` / `Default`. -/
def FileSystemModel.new : FileSystemModel := ⟨[], [], none⟩

/-- Replace the `children` field of the node at an index, leaving every other
field and every other node unchanged (the shape of the in-place
`self.nodes[i].children` mutations in the source). -/
def modifyChildren (ns : List FileNode) (i : Nat) (f : List Nat → List Nat) :
    List FileNode :=
  match ns[i]? with
  | some n => ns.set i { n with children := f n.children }
  | none => ns

/-- Embedding of `FileSystemModel::add_node_internal` (fs_model.rs lines
96-131): append a node, index it, link it into the parent's children, and
record it as root when it has no indexed parent. -/
def FileSystemModel.add_node_internal (m : FileSystemModel) (path : FsPath)
    (name : String) (is_dir : Bool) (depth : Nat) : FileSystemModel × Nat :=
  let index := m.nodes.length
  let parent := (parentPath path).bind (fun pp => lookupA m.path_to_index pp)
  let node : FileNode := ⟨path, name, is_dir, depth, [], parent⟩
  let nodes1 := m.nodes ++ [node]
  let map1 := insertA m.path_to_index path index
  match parent with
  | some parent_idx =>
      (⟨modifyChildren nodes1 parent_idx (fun cs => cs ++ [index]), map1, m.root⟩, index)
  | none =>
      (⟨nodes1, map1, some index⟩, index)

/-- Embedding of `FileSystemModel::add_node` (fs_model.rs lines 133-155):
no-op returning `none` when the path is already indexed; otherwise compute the
name and the depth (parent's depth + 1, or 0 when the parent is not indexed)
and delegate to `add_node_internal`. The source reads `self.nodes[idx].depth`
with a direct index; the `none` fallback of `get?` below is dead code by the
reachability invariant proved later. -/
def FileSystemModel.add_node (m : FileSystemModel) (path : FsPath)
    (is_dir : Bool) : FileSystemModel × Option Nat :=
  if (lookupA m.path_to_index path).isSome then (m, none)
  else
    let name := (fileName path).getD ""
    let depth :=
      match parentPath path with
      | some parent_path =>
        match lookupA m.path_to_index parent_path with
        | some idx =>
          match m.nodes[idx]? with
          | some n => n.depth + 1
          | none => 0
        | none => 0
      | none => 0
    let r := m.add_node_internal path name is_dir depth
    (r.1, some r.2)

/-- Embedding of `FileSystemModel::remove_node` (fs_model.rs lines 157-169):
drop the path from the lookup, detach the node from its parent's child list,
clear its own child list; the node slot itself is retained. -/
def FileSystemModel.remove_node (m : FileSystemModel) (path : FsPath) :
    FileSystemModel × Option Nat :=
  match lookupA m.path_to_index path with
  | none => (m, none)
  | some index =>
    let map1 := eraseA m.path_to_index path
    let nodes1 :=
      match m.nodes[index]?.bind (fun n => n.parent) with
      | some parent_idx =>
          modifyChildren m.nodes parent_idx (fun cs => cs.filter (fun c => c != index))
      | none => m.nodes
    let nodes2 := modifyChildren nodes1 index (fun _ => [])
    (⟨nodes2, map1, m.root⟩, some index)

/-- Embedding of `FileSystemModel::get_node` (fs_model.rs lines 171-173). -/
def FileSystemModel.get_node (m : FileSystemModel) (index : Nat) :
    Option FileNode :=
  m.nodes[index]?

/-- Embedding of `FileSystemModel::get_node_by_path` (fs_model.rs lines
175-178); the source indexes `self.nodes[index]` directly, which the
reachability invariant proves in bounds. -/
def FileSystemModel.get_node_by_path (m : FileSystemModel) (path : FsPath) :
    Option (Nat × FileNode) :=
  match lookupA m.path_to_index path with
  | none => none
  | some index => m.nodes[index]?.map (fun n => (index, n))

/-- Embedding of `FileSystemModel::total_nodes`. -/
def FileSystemModel.total_nodes (m : FileSystemModel) : Nat := m.nodes.length

/-- Models reached from the empty model by any sequence of `add_node` /
`remove_node` calls. -/
inductive Reachable : FileSystemModel → Prop
  | empty : Reachable FileSystemModel.new
  | add (m : FileSystemModel) (p : FsPath) (d : Bool) :
      Reachable m → Reachable (m.add_node p d).1
  | rem (m : FileSystemModel) (p : FsPath) :
      Reachable m → Reachable (m.remove_node p).1

/-! ## Structural invariants of the file-system model -/

theorem length_modifyChildren (ns : List FileNode) (i : Nat)
    (f : List Nat → List Nat) : (modifyChildren ns i f).length = ns.length := by
  unfold modifyChildren
  cases h : ns[i]? <;> simp

theorem getElem?_modifyChildren (ns : List FileNode) (i : Nat)
    (f : List Nat → List Nat) (j : Nat) :
    (modifyChildren ns i f)[j]? =
      if j = i then ns[j]?.map (fun n => { n with children := f n.children })
      else ns[j]? := by
  unfold modifyChildren
  cases h : ns[i]? with
  | none =>
    by_cases hji : j = i
    · subst hji
      simp [h]
    · simp [hji]
  | some n =>
    by_cases hji : j = i
    · subst hji
      have hlt : j < ns.length := (List.getElem?_eq_some.mp h).1
      rw [if_pos rfl, List.getElem?_set_eq_of_lt _ hlt, h]
      rfl
    · rw [if_neg hji, List.getElem?_set_ne (fun he => hji he.symm)]

/-- Both `modifyChildren` call sites in the source touch only the `children`
field: every node keeps its path, depth and parent. -/
def SameSkeleton (ns ns' : List FileNode) : Prop :=
  ∀ j : Nat, (ns'[j]?).map (fun n => (n.path, n.depth, n.parent)) =
    (ns[j]?).map (fun n => (n.path, n.depth, n.parent))

theorem sameSkeleton_refl (ns : List FileNode) : SameSkeleton ns ns :=
  fun _ => rfl

theorem sameSkeleton_trans {a b c : List FileNode} (h1 : SameSkeleton a b)
    (h2 : SameSkeleton b c) : SameSkeleton a c :=
  fun j => (h2 j).trans (h1 j)

theorem sameSkeleton_modifyChildren (ns : List FileNode) (i : Nat)
    (f : List Nat → List Nat) : SameSkeleton ns (modifyChildren ns i f) := by
  intro j
  rw [getElem?_modifyChildren]
  by_cases hji : j = i
  · subst hji
    cases ns[j]? <;> simp
  · simp [hji]

theorem sameSkeleton_some_of {ns ns' : List FileNode} (h : SameSkeleton ns ns')
    {j : Nat} {n : FileNode} (hj : ns[j]? = some n) :
    ∃ n', ns'[j]? = some n' ∧ n'.path = n.path ∧ n'.depth = n.depth ∧
      n'.parent = n.parent := by
  have := h j
  rw [hj] at this
  cases hj' : ns'[j]? with
  | none => rw [hj'] at this; simp at this
  | some n' =>
    rw [hj'] at this
    simp only [Option.map_some', Option.some_inj, Prod.mk.injEq] at this
    exact ⟨n', rfl, this.1, this.2.1, this.2.2⟩

theorem sameSkeleton_of_some {ns ns' : List FileNode} (h : SameSkeleton ns ns')
    {j : Nat} {n' : FileNode} (hj : ns'[j]? = some n') :
    ∃ n, ns[j]? = some n ∧ n.path = n'.path ∧ n.depth = n'.depth ∧
      n.parent = n'.parent := by
  have := h j
  rw [hj] at this
  cases hj' : ns[j]? with
  | none => rw [hj'] at this; simp at this
  | some n =>
    rw [hj'] at this
    simp only [Option.map_some', Option.some_inj, Prod.mk.injEq] at this
    exact ⟨n, rfl, this.1.symm, this.2.1.symm, this.2.2.symm⟩

theorem not_mem_keysA_of_lookupA_none {κ α : Type} [DecidableEq κ]
    {l : List (κ × α)} {k : κ} (h : lookupA l k = none) : k ∉ keysA l := by
  intro hmem
  have := lookupA_isSome_of_mem_keysA l k hmem
  rw [h] at this
  simp at this

/-- Master invariant of `FileSystemModel`: the lookup keys are unique, every
indexed path points at a node carrying that path, every parent link is in
bounds with the child one level deeper, and a non-empty model records a
parentless node as root. -/
structure ModelInv (m : FileSystemModel) : Prop where
  nodup : (keysA m.path_to_index).Nodup
  index_valid : ∀ (p : FsPath) (i : Nat), lookupA m.path_to_index p = some i →
      ∃ n : FileNode, m.nodes[i]? = some n ∧ n.path = p
  depth_parent : ∀ (i : Nat) (n : FileNode) (pidx : Nat),
      m.nodes[i]? = some n → n.parent = some pidx →
      ∃ pn : FileNode, m.nodes[pidx]? = some pn ∧ n.depth = pn.depth + 1
  root_ok : m.nodes ≠ [] →
      ∃ (r : Nat) (n : FileNode), m.root = some r ∧ m.nodes[r]? = some n ∧ n.parent = none

theorem inv_empty : ModelInv FileSystemModel.new := by
  refine ⟨?_, ?_, ?_, ?_⟩
  · simp [FileSystemModel.new, keysA]
  · intro p i h
    simp [FileSystemModel.new, lookupA] at h
  · intro i n pidx h
    simp [FileSystemModel.new] at h
  · intro h
    simp [FileSystemModel.new] at h

theorem lookupA_concat_cases {κ : Type} [DecidableEq κ]
    (l : List (κ × Nat)) (k : κ) (v : Nat) (q : κ) (i : Nat)
    (h : lookupA (l ++ [(k, v)]) q = some i) :
    lookupA l q = some i ∨ (q = k ∧ i = v) := by
  cases hq : lookupA l q with
  | some j =>
    rw [lookupA_append_left _ _ _ _ hq] at h
    exact Or.inl h
  | none =>
    rw [lookupA_append_right _ _ _ hq] at h
    by_cases hk : k = q
    · simp [lookupA, hk] at h
      exact Or.inr ⟨hk.symm, h.symm⟩
    · simp [lookupA, hk] at h

theorem keysA_concat_nodup {κ : Type} [DecidableEq κ]
    (l : List (κ × Nat)) (k : κ) (v : Nat) (hnd : (keysA l).Nodup)
    (habs : k ∉ keysA l) : (keysA (l ++ [(k, v)])).Nodup := by
  simp only [keysA, List.map_append, List.map_cons, List.map_nil]
  rw [List.nodup_append]
  refine ⟨hnd, List.nodup_singleton _, ?_⟩
  intro a ha hb
  simp only [List.mem_singleton] at hb
  subst hb
  exact habs ha

theorem inv_add_internal (m : FileSystemModel) (p : FsPath) (nm : String)
    (d : Bool) (dep : Nat) (hm : ModelInv m)
    (habs : lookupA m.path_to_index p = none)
    (hdep : ∀ (pp : FsPath) (pidx : Nat) (pn : FileNode), parentPath p = some pp →
        lookupA m.path_to_index pp = some pidx → m.nodes[pidx]? = some pn →
        dep = pn.depth + 1) :
    ModelInv (m.add_node_internal p nm d dep).1 := by
  have hmap : insertA m.path_to_index p m.nodes.length
      = m.path_to_index ++ [(p, m.nodes.length)] := insertA_of_absent _ _ _ habs
  have hnotmem : p ∉ keysA m.path_to_index := not_mem_keysA_of_lookupA_none habs
  have hnd' := keysA_concat_nodup m.path_to_index p m.nodes.length hm.nodup hnotmem
  cases hp : (parentPath p).bind (fun pp => lookupA m.path_to_index pp) with
  | none =>
    simp only [FileSystemModel.add_node_internal, hp, hmap]
    refine ⟨hnd', ?_, ?_, ?_⟩
    · intro q i h
      rcases lookupA_concat_cases _ _ _ _ _ h with hold | ⟨hq, hi⟩
      · obtain ⟨n, hn, hnp⟩ := hm.index_valid q i hold
        obtain ⟨hi, -⟩ := List.getElem?_eq_some.mp hn
        exact ⟨n, by rw [List.getElem?_append_left hi]; exact hn, hnp⟩
      · subst hq; subst hi
        exact ⟨_, List.getElem?_concat_length _ _, rfl⟩
    · intro i n pidx h hpar
      by_cases hi : i = m.nodes.length
      · subst hi
        rw [List.getElem?_concat_length] at h
        injection h with h
        subst h
        simp at hpar
      · have hlen : i < m.nodes.length + 1 := by
          have := (List.getElem?_eq_some.mp h).fst
          simpa using this
        have hlt : i < m.nodes.length := lt_of_le_of_ne (Nat.lt_succ_iff.mp hlen) hi
        rw [List.getElem?_append_left hlt] at h
        obtain ⟨pn, hpn, hd⟩ := hm.depth_parent i n pidx h hpar
        obtain ⟨hplt, -⟩ := List.getElem?_eq_some.mp hpn
        exact ⟨pn, by rw [List.getElem?_append_left hplt]; exact hpn, hd⟩
    · intro _
      exact ⟨m.nodes.length, _, rfl, List.getElem?_concat_length _ _, rfl⟩
  | some pidx =>
    obtain ⟨pp, hpp, hppl⟩ := Option.bind_eq_some.mp hp
    obtain ⟨pn, hpn, hpnpath⟩ := hm.index_valid pp pidx hppl
    have hpidx_lt : pidx < m.nodes.length := (List.getElem?_eq_some.mp hpn).fst
    simp only [FileSystemModel.add_node_internal, hp, hmap]
    set node : FileNode := ⟨p, nm, d, dep, [], some pidx⟩ with hnode
    have hskel : SameSkeleton (m.nodes ++ [node])
        (modifyChildren (m.nodes ++ [node]) pidx
          (fun cs => cs ++ [m.nodes.length])) :=
      sameSkeleton_modifyChildren _ _ _
    refine ⟨hnd', ?_, ?_, ?_⟩
    · intro q i h
      rcases lookupA_concat_cases _ _ _ _ _ h with hold | ⟨hq, hi⟩
      · obtain ⟨n, hn, hnp⟩ := hm.index_valid q i hold
        obtain ⟨hilt, -⟩ := List.getElem?_eq_some.mp hn
        have hn1 : (m.nodes ++ [node])[i]? = some n := by
          rw [List.getElem?_append_left hilt]; exact hn
        obtain ⟨n', hn', hp', -, -⟩ := sameSkeleton_some_of hskel hn1
        exact ⟨n', hn', hp'.trans hnp⟩
      · subst hq; subst hi
        have hn1 : (m.nodes ++ [node])[m.nodes.length]? = some node :=
          List.getElem?_concat_length _ _
        obtain ⟨n', hn', hp', -, -⟩ := sameSkeleton_some_of hskel hn1
        exact ⟨n', hn', hp'⟩
    · intro i n pidx' h hpar
      obtain ⟨n0, hn0, hpath0, hdepth0, hparent0⟩ := sameSkeleton_of_some hskel h
      by_cases hi : i = m.nodes.length
      · subst hi
        rw [List.getElem?_concat_length] at hn0
        injection hn0 with hn0
        subst hn0
        have h2 : node.parent = some pidx' := hparent0.trans hpar
        simp only [hnode] at h2
        injection h2 with h2
        subst h2
        have hpn1 : (m.nodes ++ [node])[pidx]? = some pn := by
          rw [List.getElem?_append_left hpidx_lt]; exact hpn
        obtain ⟨pn', hpn', -, hpd', -⟩ := sameSkeleton_some_of hskel hpn1
        refine ⟨pn', hpn', ?_⟩
        rw [← hdepth0]
        simp only [hnode]
        rw [hpd']
        exact hdep pp pidx pn hpp hppl hpn
      · have hlen : i < m.nodes.length + 1 := by
          have := (List.getElem?_eq_some.mp hn0).fst
          simpa using this
        have hlt : i < m.nodes.length := lt_of_le_of_ne (Nat.lt_succ_iff.mp hlen) hi
        rw [List.getElem?_append_left hlt] at hn0
        have hpar0 : n0.parent = some pidx' := by rw [hparent0, hpar]
        obtain ⟨pn', hpn', hd'⟩ := hm.depth_parent i n0 pidx' hn0 hpar0
        obtain ⟨hplt, -⟩ := List.getElem?_eq_some.mp hpn'
        have hpn1 : (m.nodes ++ [node])[pidx']? = some pn' := by
          rw [List.getElem?_append_left hplt]; exact hpn'
        obtain ⟨pn'', hpn'', -, hpd'', -⟩ := sameSkeleton_some_of hskel hpn1
        refine ⟨pn'', hpn'', ?_⟩
        rw [← hdepth0, hd', hpd'']
    · intro _
      have hne : m.nodes ≠ [] := by
        intro he
        rw [he] at hpidx_lt
        simp at hpidx_lt
      obtain ⟨r, rn, hr, hrn, hrp⟩ := hm.root_ok hne
      obtain ⟨hrlt, -⟩ := List.getElem?_eq_some.mp hrn
      have hrn1 : (m.nodes ++ [node])[r]? = some rn := by
        rw [List.getElem?_append_left hrlt]; exact hrn
      obtain ⟨rn', hrn', -, -, hrp'⟩ := sameSkeleton_some_of hskel hrn1
      exact ⟨r, rn', hr, hrn', hrp'.trans hrp⟩

theorem modelInv_of_sameSkeleton_erase (m : FileSystemModel) (hm : ModelInv m)
    (ns' : List FileNode) (hskel : SameSkeleton m.nodes ns') (p : FsPath) :
    ModelInv ⟨ns', eraseA m.path_to_index p, m.root⟩ := by
  refine ⟨keysA_eraseA_nodup _ _ hm.nodup, ?_, ?_, ?_⟩
  · intro q i h
    by_cases hq : q = p
    · subst hq
      rw [lookupA_eraseA_self _ _ hm.nodup] at h
      cases h
    · rw [lookupA_eraseA_ne _ _ _ hq] at h
      obtain ⟨n, hn, hnp⟩ := hm.index_valid q i h
      obtain ⟨n', hn', hp', -, -⟩ := sameSkeleton_some_of hskel hn
      exact ⟨n', hn', hp'.trans hnp⟩
  · intro i n pidx h hpar
    obtain ⟨n0, hn0, -, hd0, hp0⟩ := sameSkeleton_of_some hskel h
    obtain ⟨pn, hpn, hd⟩ := hm.depth_parent i n0 pidx hn0 (hp0.trans hpar)
    obtain ⟨pn', hpn', -, hpd', -⟩ := sameSkeleton_some_of hskel hpn
    refine ⟨pn', hpn', ?_⟩
    rw [← hd0, hd, hpd']
  · intro hne
    have hne0 : m.nodes ≠ [] := by
      intro he
      apply hne
      have h0 := hskel 0
      rw [he] at h0
      cases hns : ns' with
      | nil => rfl
      | cons a l =>
        rw [hns] at h0
        simp at h0
    obtain ⟨r, rn, hr, hrn, hrp⟩ := hm.root_ok hne0
    obtain ⟨rn', hrn', -, -, hrp'⟩ := sameSkeleton_some_of hskel hrn
    exact ⟨r, rn', hr, hrn', hrp'.trans hrp⟩

theorem inv_rem (m : FileSystemModel) (p : FsPath) (hm : ModelInv m) :
    ModelInv (m.remove_node p).1 := by
  cases hc : lookupA m.path_to_index p with
  | none => simpa [FileSystemModel.remove_node, hc] using hm
  | some index =>
    cases hpar : m.nodes[index]?.bind (fun n => n.parent) with
    | none =>
      simp only [FileSystemModel.remove_node, hc, hpar]
      exact modelInv_of_sameSkeleton_erase m hm _
        (sameSkeleton_modifyChildren _ _ _) p
    | some pidx =>
      simp only [FileSystemModel.remove_node, hc, hpar]
      exact modelInv_of_sameSkeleton_erase m hm _
        (sameSkeleton_trans (sameSkeleton_modifyChildren _ _ _)
          (sameSkeleton_modifyChildren _ _ _)) p

theorem inv_add (m : FileSystemModel) (p : FsPath) (d : Bool) (hm : ModelInv m) :
    ModelInv (m.add_node p d).1 := by
  cases hc : lookupA m.path_to_index p with
  | some i => simpa [FileSystemModel.add_node, hc] using hm
  | none =>
    simp only [FileSystemModel.add_node, hc, Option.isSome_none,
      Bool.false_eq_true, if_false]
    refine inv_add_internal m p _ d _ hm hc ?_
    intro pp pidx pn hpp hpidx hpn
    simp [hpp, hpidx, hpn]

theorem inv_of_reachable {m : FileSystemModel} (h : Reachable m) : ModelInv m := by
  induction h with
  | empty => exact inv_empty
  | add m p d _ ih => exact inv_add m p d ih
  | rem m p _ ih => exact inv_rem m p ih

/-! ## Helper equations for `add_node` -/

theorem add_node_internal_map (m : FileSystemModel) (p : FsPath) (nm : String)
    (d : Bool) (dep : Nat) :
    (m.add_node_internal p nm d dep).1.path_to_index
      = insertA m.path_to_index p m.nodes.length := by
  unfold FileSystemModel.add_node_internal
  cases hp : (parentPath p).bind (fun pp => lookupA m.path_to_index pp) <;> simp [hp]

theorem add_node_internal_ret (m : FileSystemModel) (p : FsPath) (nm : String)
    (d : Bool) (dep : Nat) :
    (m.add_node_internal p nm d dep).2 = m.nodes.length := by
  unfold FileSystemModel.add_node_internal
  cases hp : (parentPath p).bind (fun pp => lookupA m.path_to_index pp) <;> simp [hp]

theorem add_node_present (m : FileSystemModel) (p : FsPath) (d : Bool)
    (hc : (lookupA m.path_to_index p).isSome) : m.add_node p d = (m, none) := by
  unfold FileSystemModel.add_node
  rw [if_pos hc]

theorem add_node_absent_ret (m : FileSystemModel) (p : FsPath) (d : Bool)
    (hc : lookupA m.path_to_index p = none) :
    (m.add_node p d).2 = some m.nodes.length := by
  simp only [FileSystemModel.add_node, hc, Option.isSome_none,
    Bool.false_eq_true, if_false]
  rw [add_node_internal_ret]

theorem add_node_absent_lookup (m : FileSystemModel) (p : FsPath) (d : Bool)
    (hc : lookupA m.path_to_index p = none) :
    lookupA (m.add_node p d).1.path_to_index p = some m.nodes.length := by
  simp only [FileSystemModel.add_node, hc, Option.isSome_none,
    Bool.false_eq_true, if_false]
  rw [add_node_internal_map]
  exact lookupA_insertA_self _ _ _

/-! ## Concrete models used by witnesses and counterexamples -/

/-- Model built by `add_node ["a"]` then `add_node ["a", "b"]` (a parent and
its child). -/
def exampleChain : FileSystemModel :=
  ((FileSystemModel.new.add_node ["a"] true).1.add_node ["a", "b"] false).1

/-- Model built by `add_node ["a"]` then `add_node ["b"]`: two sibling top
level paths, so two parentless nodes. -/
def exampleTwoRoots : FileSystemModel :=
  ((FileSystemModel.new.add_node ["a"] true).1.add_node ["b"] true).1

/-! ## Claim theorems for the file-system model -/

/-- C2: for every model reachable from the empty `FileSystemModel` by
`add_node` / `remove_node` calls, every key of `path_to_index` maps to an
index that is a valid position of the node vector whose node stores exactly
that path. -/
theorem c2_path_index_consistent (m : FileSystemModel) (hr : Reachable m)
    (p : FsPath) (i : Nat) (h : lookupA m.path_to_index p = some i) :
    i < m.nodes.length ∧ ∃ n : FileNode, m.nodes[i]? = some n ∧ n.path = p := by
  obtain ⟨n, hn, hnp⟩ := (inv_of_reachable hr).index_valid p i h
  exact ⟨(List.getElem?_eq_some.mp hn).fst, n, hn, hnp⟩

/-- Witness for C2 at a concrete model: the chain `["a"]`, `["a","b"]`. -/
theorem c2_path_index_consistent_witness :
    1 < exampleChain.nodes.length ∧
    ∃ n : FileNode, exampleChain.nodes[1]? = some n ∧ n.path = ["a", "b"] :=
  c2_path_index_consistent exampleChain
    (Reachable.add _ _ _ (Reachable.add _ _ _ Reachable.empty))
    ["a", "b"] 1 (by decide)

/-- C6: `add_node` is idempotent on its path: once a path is indexed (the
first call returned index `i`), a second `add_node` with that path and any
`is_dir` flag returns `none` and leaves the model — nodes, lookup and root —
unchanged, and the path still maps to the originally assigned index. -/
theorem c6_add_node_idempotent (m : FileSystemModel) (p : FsPath)
    (d d' : Bool) (i : Nat) (h : (m.add_node p d).2 = some i) :
    (m.add_node p d).1.add_node p d' = ((m.add_node p d).1, none) ∧
    lookupA (m.add_node p d).1.path_to_index p = some i := by
  cases hc : lookupA m.path_to_index p with
  | some j =>
    rw [add_node_present m p d (by rw [hc]; rfl)] at h
    cases h
  | none =>
    have hret := add_node_absent_ret m p d hc
    rw [h] at hret
    have hi : i = m.nodes.length := by injection hret
    subst hi
    have hlook := add_node_absent_lookup m p d hc
    exact ⟨add_node_present _ p d' (by rw [hlook]; rfl), hlook⟩

/-- Witness for C6: re-adding `["a"]` to the model that indexed it at 0. -/
theorem c6_add_node_idempotent_witness :
    (FileSystemModel.new.add_node ["a"] true).1.add_node ["a"] false
      = ((FileSystemModel.new.add_node ["a"] true).1, none) ∧
    lookupA (FileSystemModel.new.add_node ["a"] true).1.path_to_index ["a"]
      = some 0 :=
  c6_add_node_idempotent FileSystemModel.new ["a"] true false 0 (by decide)

/-- C8: in every reachable model, a node whose `parent` field is `some pidx`
sits one level deeper than the node at `pidx`. -/
theorem c8_depth_parent_succ (m : FileSystemModel) (hr : Reachable m)
    (i : Nat) (n : FileNode) (pidx : Nat) (h : m.nodes[i]? = some n)
    (hp : n.parent = some pidx) :
    ∃ pn : FileNode, m.nodes[pidx]? = some pn ∧ n.depth = pn.depth + 1 :=
  (inv_of_reachable hr).depth_parent i n pidx h hp

/-- Witness for C8: node `["a","b"]` of the chain model, parent `["a"]`. -/
theorem c8_depth_parent_succ_witness :
    ∃ pn : FileNode, exampleChain.nodes[0]? = some pn ∧
      (⟨["a", "b"], "b", false, 1, [], some 0⟩ : FileNode).depth = pn.depth + 1 :=
  c8_depth_parent_succ exampleChain
    (Reachable.add _ _ _ (Reachable.add _ _ _ Reachable.empty))
    1 ⟨["a", "b"], "b", false, 1, [], some 0⟩ 0 (by decide) (by decide)

/-- C9 as stated is false: `add_node ["a"]` then `add_node ["b"]` yields a
reachable non-empty model with TWO parentless nodes (the claim demands
exactly one). -/
theorem c9_counterexample :
    Reachable exampleTwoRoots ∧ exampleTwoRoots.nodes ≠ [] ∧
    (exampleTwoRoots.nodes.filter (fun n => n.parent == none)).length = 2 :=
  ⟨Reachable.add _ _ _ (Reachable.add _ _ _ Reachable.empty),
    by decide, by decide⟩

/-- C9 amended: in every reachable non-empty model, at least one node has no
parent and the `root` field records the index of a parentless node; when a
node is added before its parent path is indexed the model can hold several
parentless nodes. -/
theorem c9_root_parentless (m : FileSystemModel) (hr : Reachable m)
    (hne : m.nodes ≠ []) :
    ∃ (r : Nat) (n : FileNode), m.root = some r ∧ m.nodes[r]? = some n ∧
      n.parent = none :=
  (inv_of_reachable hr).root_ok hne

/-- Witness for the amended C9 at the two-sibling model. -/
theorem c9_root_parentless_witness :
    ∃ (r : Nat) (n : FileNode), exampleTwoRoots.root = some r ∧
      exampleTwoRoots.nodes[r]? = some n ∧ n.parent = none :=
  c9_root_parentless exampleTwoRoots
    (Reachable.add _ _ _ (Reachable.add _ _ _ Reachable.empty)) (by decide)

/-- C10: in every reachable model every index stored in `path_to_index` is in
bounds for the node vector (so `get_node_by_path`'s direct indexing cannot
panic), and `get_node_by_path` returns `none` exactly when the queried path
is not a key of `path_to_index`. -/
theorem c10_get_node_by_path_safe (m : FileSystemModel) (hr : Reachable m) :
    (∀ (p : FsPath) (i : Nat), lookupA m.path_to_index p = some i →
      i < m.nodes.length) ∧
    ∀ p : FsPath,
      (m.get_node_by_path p = none ↔ lookupA m.path_to_index p = none) := by
  have hm := inv_of_reachable hr
  constructor
  · intro p i h
    obtain ⟨n, hn, -⟩ := hm.index_valid p i h
    exact (List.getElem?_eq_some.mp hn).fst
  · intro p
    unfold FileSystemModel.get_node_by_path
    cases hc : lookupA m.path_to_index p with
    | none => simp
    | some i =>
      obtain ⟨n, hn, -⟩ := hm.index_valid p i hc
      simp [hn]

/-- Witness for C10 at the chain model. -/
theorem c10_get_node_by_path_safe_witness :
    (0 < exampleChain.nodes.length) ∧
    (exampleChain.get_node_by_path ["c"] = none ↔
      lookupA exampleChain.path_to_index ["c"] = none) :=
  ⟨(c10_get_node_by_path_safe exampleChain
      (Reachable.add _ _ _ (Reachable.add _ _ _ Reachable.empty))).1
      ["a"] 0 (by decide),
    (c10_get_node_by_path_safe exampleChain
      (Reachable.add _ _ _ (Reachable.add _ _ _ Reachable.empty))).2 ["c"]⟩

/-! ## Gitignore reconciliation (`frontend/src/main.rs`, `update_file_system`) -/

/-- Embedding of `is_gitignore_file` (main.rs lines 1003-1005). -/
def is_gitignore_file (p : FsPath) : Bool :=
  match fileName p with
  | some n => n = ".gitignore"
  | none => false

theorem eraseA_of_absent {κ α : Type} [DecidableEq κ] (l : List (κ × α))
    (k : κ) (h : lookupA l k = none) : eraseA l k = l := by
  induction l with
  | nil => simp [eraseA]
  | cons hd tl ih =>
    obtain ⟨q, w⟩ := hd
    by_cases hq : q = k
    · simp [lookupA, hq] at h
    · simp only [lookupA, if_neg hq] at h
      simp [eraseA, hq, ih h]

theorem remove_node_map (m : FileSystemModel) (p : FsPath) :
    (m.remove_node p).1.path_to_index = eraseA m.path_to_index p := by
  unfold FileSystemModel.remove_node
  cases hc : lookupA m.path_to_index p with
  | none => exact (eraseA_of_absent _ _ hc).symm
  | some index => rfl

theorem add_node_absent_map (m : FileSystemModel) (p : FsPath) (d : Bool)
    (hc : lookupA m.path_to_index p = none) :
    (m.add_node p d).1.path_to_index
      = insertA m.path_to_index p m.nodes.length := by
  simp only [FileSystemModel.add_node, hc, Option.isSome_none,
    Bool.false_eq_true, if_false]
  rw [add_node_internal_map]

/-- One step of the removal loop of the reconciliation branch
(main.rs lines 1102-1109, model part). -/
def reconcileRemStep (acc : FileSystemModel) (q : FsPath) : FileSystemModel :=
  (acc.remove_node q).1

/-- One step of the addition loop of the reconciliation branch
(main.rs lines 1112-1128, model part); `isDir` stands for the
`path.is_dir()` filesystem query. -/
def reconcileAddStep (isDir : FsPath → Bool) (acc : FileSystemModel)
    (q : FsPath) : FileSystemModel :=
  if (lookupA acc.path_to_index q).isSome then acc
  else (acc.add_node q (isDir q)).1

/-- Embedding of the gitignore-reconciliation branch of `update_file_system`
(main.rs lines 1089-1129), restricted to its `FileSystemModel` updates (the
star-entity bookkeeping is presentation): remove every indexed path not in
`valid_paths`, then add every path of `valid_paths` not yet indexed. -/
def reconcile (m : FileSystemModel) (valid_paths : List FsPath)
    (isDir : FsPath → Bool) : FileSystemModel :=
  let paths_to_remove :=
    (keysA m.path_to_index).filter (fun q => decide (q ∉ valid_paths))
  let m1 := paths_to_remove.foldl reconcileRemStep m
  valid_paths.foldl (reconcileAddStep isDir) m1

theorem foldl_remStep_map (R : List FsPath) (m : FileSystemModel) :
    (R.foldl reconcileRemStep m).path_to_index
      = R.foldl (fun l q => eraseA l q) m.path_to_index := by
  induction R generalizing m with
  | nil => rfl
  | cons r R' ih =>
    simp only [List.foldl_cons]
    rw [ih, reconcileRemStep, remove_node_map]

theorem foldl_eraseA_lookup (R : List FsPath) (l : List (FsPath × Nat))
    (k : FsPath) (hnd : (keysA l).Nodup) :
    lookupA (R.foldl (fun l q => eraseA l q) l) k
      = if k ∈ R then none else lookupA l k := by
  induction R generalizing l with
  | nil => simp
  | cons r R' ih =>
    simp only [List.foldl_cons]
    rw [ih _ (keysA_eraseA_nodup _ _ hnd)]
    by_cases hm : k ∈ R'
    · simp [hm]
    · by_cases hk : k = r
      · subst hk
        simp [hm, lookupA_eraseA_self _ _ hnd]
      · simp [hm, hk, lookupA_eraseA_ne _ _ _ hk]

theorem foldl_addStep_preserves (isDir : FsPath → Bool) (V : List FsPath)
    (m : FileSystemModel) (k : FsPath) (v : Nat)
    (h : lookupA m.path_to_index k = some v) :
    lookupA ((V.foldl (reconcileAddStep isDir) m)).path_to_index k = some v := by
  induction V generalizing m with
  | nil => exact h
  | cons q V' ih =>
    simp only [List.foldl_cons]
    apply ih
    unfold reconcileAddStep
    cases hc : lookupA m.path_to_index q with
    | some j => simp [hc, h]
    | none =>
      have hk : k ≠ q := by
        intro he
        rw [he, hc] at h
        cases h
      simp only [hc, Option.isSome_none, Bool.false_eq_true, if_false]
      rw [add_node_absent_map m q _ hc, lookupA_insertA_ne _ _ _ _ hk]
      exact h

theorem foldl_addStep_mem (isDir : FsPath → Bool) (V : List FsPath)
    (m : FileSystemModel) (k : FsPath) (h : k ∈ V) :
    (lookupA ((V.foldl (reconcileAddStep isDir) m)).path_to_index k).isSome := by
  induction V generalizing m with
  | nil => cases h
  | cons q V' ih =>
    simp only [List.foldl_cons]
    rcases List.mem_cons.mp h with hk | hk
    · subst hk
      have hsome : ∃ v, lookupA ((reconcileAddStep isDir m k)).path_to_index k
          = some v := by
        unfold reconcileAddStep
        cases hc : lookupA m.path_to_index k with
        | some j => simp [hc]
        | none =>
          simp only [hc, Option.isSome_none, Bool.false_eq_true, if_false]
          rw [add_node_absent_map m k _ hc]
          exact ⟨m.nodes.length, lookupA_insertA_self _ _ _⟩
      obtain ⟨v, hv⟩ := hsome
      rw [foldl_addStep_preserves isDir V' _ k v hv]
      rfl
    · exact ih _ hk

theorem foldl_addStep_only (isDir : FsPath → Bool) (V : List FsPath)
    (m : FileSystemModel) (k : FsPath)
    (h : (lookupA ((V.foldl (reconcileAddStep isDir) m)).path_to_index k).isSome) :
    (lookupA m.path_to_index k).isSome ∨ k ∈ V := by
  induction V generalizing m with
  | nil => exact Or.inl h
  | cons q V' ih =>
    simp only [List.foldl_cons] at h
    rcases ih _ h with hs | hm
    · unfold reconcileAddStep at hs
      by_cases hkq : k = q
      · exact Or.inr (by simp [hkq])
      · cases hc : lookupA m.path_to_index q with
        | some j =>
          rw [hc] at hs
          simp only [Option.isSome_some, if_true] at hs
          exact Or.inl hs
        | none =>
          rw [hc] at hs
          simp only [Option.isSome_none, Bool.false_eq_true, if_false] at hs
          rw [add_node_absent_map m q _ hc, lookupA_insertA_ne _ _ _ _ hkq] at hs
          exact Or.inl hs
    · exact Or.inr (List.mem_cons_of_mem _ hm)

/-- C4: for every reachable model and every list of currently-valid paths,
reconciliation leaves the set of indexed paths exactly equal to the valid
set (now-invalid paths removed, newly-valid paths added), and every path
that was indexed and stays valid keeps its original index. -/
theorem c4_reconcile_exact (m : FileSystemModel) (hr : Reachable m)
    (valid_paths : List FsPath) (isDir : FsPath → Bool) :
    (∀ p : FsPath,
      (lookupA (reconcile m valid_paths isDir).path_to_index p).isSome
        ↔ p ∈ valid_paths) ∧
    ∀ (p : FsPath) (i : Nat), p ∈ valid_paths →
      lookupA m.path_to_index p = some i →
      lookupA (reconcile m valid_paths isDir).path_to_index p = some i := by
  have hnd := (inv_of_reachable hr).nodup
  have hm1 : ∀ k : FsPath,
      lookupA (((keysA m.path_to_index).filter
          (fun q => decide (q ∉ valid_paths))).foldl reconcileRemStep m).path_to_index k
        = if k ∈ (keysA m.path_to_index).filter (fun q => decide (q ∉ valid_paths))
          then none else lookupA m.path_to_index k := by
    intro k
    rw [foldl_remStep_map, foldl_eraseA_lookup _ _ _ hnd]
  constructor
  · intro p
    constructor
    · intro hs
      unfold reconcile at hs
      rcases foldl_addStep_only isDir valid_paths _ p hs with hs1 | hmem
      · rw [hm1 p] at hs1
        by_cases hfil : p ∈ (keysA m.path_to_index).filter
            (fun q => decide (q ∉ valid_paths))
        · rw [if_pos hfil] at hs1
          cases hs1
        · rw [if_neg hfil] at hs1
          cases hlp : lookupA m.path_to_index p with
          | none => rw [hlp] at hs1; cases hs1
          | some i =>
            have hkeys := lookupA_mem_keysA _ _ _ hlp
            by_contra hnv
            exact hfil (List.mem_filter.mpr ⟨hkeys, by simpa using hnv⟩)
      · exact hmem
    · intro hmem
      unfold reconcile
      exact foldl_addStep_mem isDir valid_paths _ p hmem
  · intro p i hmem hlp
    unfold reconcile
    apply foldl_addStep_preserves
    rw [hm1 p, if_neg]
    · exact hlp
    · intro hfil
      have := (List.mem_filter.mp hfil).2
      simp at this
      exact this hmem

/-- Witness for C4: the chain model reconciled against the valid set
containing only `["a"]` and the fresh path `["c"]` — `["a","b"]` is removed,
`["c"]` added, `["a"]` keeps index 0. -/
theorem c4_reconcile_exact_witness :
    ((lookupA (reconcile exampleChain [["a"], ["c"]]
        (fun _ => false)).path_to_index ["a", "b"]).isSome ↔
      ["a", "b"] ∈ [["a"], ["c"]]) ∧
    lookupA (reconcile exampleChain [["a"], ["c"]]
        (fun _ => false)).path_to_index ["a"] = some 0 :=
  ⟨((c4_reconcile_exact exampleChain
      (Reachable.add _ _ _ (Reachable.add _ _ _ Reachable.empty))
      [["a"], ["c"]] (fun _ => false)).1 ["a", "b"]),
    (c4_reconcile_exact exampleChain
      (Reachable.add _ _ _ (Reachable.add _ _ _ Reachable.empty))
      [["a"], ["c"]] (fun _ => false)).2 ["a"] 0 (by decide) (by decide)⟩

/-! ## Agent lifecycle (`frontend/src/agent.rs`)

Timers and progress are `f32` in the source; they are embedded as `ℚ`.
`Vec3` is embedded as a rational triple (only carried around — no claim
depends on vector arithmetic). -/

abbrev V3 := ℚ × ℚ × ℚ

/-- Embedding of `AgentAction` (agent.rs lines 13-16). -/
inductive AgentAction where
  | MoveTo (position : V3) (node_index : Nat)
  deriving DecidableEq, Repr

/-- Embedding of `AgentState` (agent.rs lines 18-24); the source field `from`
is a reserved word in Lean and is rendered `fromPos` / `toPos`. -/
inductive AgentState where
  | Spawning (timer : ℚ)
  | Idle (timer : ℚ)
  | Moving (fromPos toPos : V3) (progress : ℚ) (target_node : Nat)
  | Despawning (timer : ℚ)
  deriving DecidableEq, Repr

/-- Embedding of the `Agent` component (agent.rs lines 26-34). The derived
display `color` is a pure function of `session_id` used only for rendering
and is omitted. -/
structure Agent where
  session_id : String
  event_queue : List AgentAction
  state : AgentState
  current_target_file : Option Nat
  current_action : Option String
  deriving DecidableEq, Repr

/-- Constants of agent.rs lines 86-89 (`AGENT_SCALE` is rendering-only). -/
def SPAWN_DURATION : ℚ := 1/2

def DESPAWN_DURATION : ℚ := 1/2

def IDLE_TIMEOUT : ℚ := 5

def MOVE_SPEED : ℚ := 6/5

/-- Embedding of the per-agent body of `agent_state_machine` (agent.rs lines
332-414): one tick of duration `dt` for one agent whose transform translation
is `translation`; returns the updated agent together with the node indices of
the `AgentArrivedEvent`s written this tick. -/
def agent_state_machine (dt : ℚ) (translation : V3) (a : Agent) :
    Agent × List Nat :=
  match a.state with
  | .Spawning timer =>
    let new_timer := timer + dt
    if new_timer ≥ SPAWN_DURATION then
      ({ a with state := .Idle 0 }, [])
    else
      ({ a with state := .Spawning new_timer }, [])
  | .Idle timer =>
    match a.event_queue with
    | AgentAction.MoveTo position node_index :: rest =>
      ({ a with
          event_queue := rest,
          current_target_file := some node_index,
          state := .Moving translation position 0 node_index }, [])
    | [] =>
      let new_timer := timer + dt
      if new_timer ≥ IDLE_TIMEOUT then
        ({ a with state := .Despawning 0, current_action := none }, [])
      else
        ({ a with state := .Idle new_timer }, [])
  | .Moving fromPos toPos progress target_node =>
    let new_progress := progress + dt / MOVE_SPEED
    if new_progress ≥ 1 then
      ({ a with current_target_file := some target_node, state := .Idle 0 },
        [target_node])
    else
      ({ a with state := .Moving fromPos toPos new_progress target_node }, [])
  | .Despawning timer =>
    let new_timer := timer + dt
    if new_timer ≥ DESPAWN_DURATION then
      ({ a with state := .Despawning DESPAWN_DURATION }, [])
    else
      ({ a with state := .Despawning new_timer }, [])

/-- C1: (i) an Idle agent with a queued `MoveTo` pops it and enters Moving
with progress 0 (emitting nothing, recording the target); (ii) while moving,
progress advances by exactly `dt / MOVE_SPEED` — independent of spatial
distance — and is monotone for `dt ≥ 0`, emitting nothing while it stays
below 1; (iii) the step on which progress reaches 1 emits exactly one
arrival event carrying the target node, sets `current_target_file` to it and
returns the agent to Idle with timer 0. -/
theorem c1_idle_move_arrive :
    (∀ (dt : ℚ) (tr : V3) (a : Agent) (t : ℚ) (pos : V3) (ni : Nat)
        (rest : List AgentAction),
      a.state = .Idle t → a.event_queue = AgentAction.MoveTo pos ni :: rest →
      agent_state_machine dt tr a =
        ({ a with
            event_queue := rest,
            current_target_file := some ni,
            state := .Moving tr pos 0 ni }, [])) ∧
    (∀ (dt : ℚ) (tr : V3) (a : Agent) (f g : V3) (pr : ℚ) (ni : Nat),
      a.state = .Moving f g pr ni → 0 ≤ dt → pr + dt / MOVE_SPEED < 1 →
      agent_state_machine dt tr a =
        ({ a with state := .Moving f g (pr + dt / MOVE_SPEED) ni }, []) ∧
      pr ≤ pr + dt / MOVE_SPEED) ∧
    (∀ (dt : ℚ) (tr : V3) (a : Agent) (f g : V3) (pr : ℚ) (ni : Nat),
      a.state = .Moving f g pr ni → 1 ≤ pr + dt / MOVE_SPEED →
      agent_state_machine dt tr a =
        ({ a with current_target_file := some ni, state := .Idle 0 }, [ni])) := by
  refine ⟨?_, ?_, ?_⟩
  · intro dt tr a t pos ni rest h1 h2
    cases a with
    | mk sid q st ctf ca =>
      simp only at h1 h2
      subst h1
      subst h2
      simp [agent_state_machine]
  · intro dt tr a f g pr ni h1 hdt h2
    cases a with
    | mk sid q st ctf ca =>
      simp only at h1
      subst h1
      constructor
      · simp [agent_state_machine, if_neg (not_le.mpr h2)]
      · have hms : (0:ℚ) < MOVE_SPEED := by norm_num [MOVE_SPEED]
        have : 0 ≤ dt / MOVE_SPEED := div_nonneg hdt (le_of_lt hms)
        linarith
  · intro dt tr a f g pr ni h1 h2
    cases a with
    | mk sid q st ctf ca =>
      simp only at h1
      subst h1
      simp [agent_state_machine, if_pos h2]

/-- Concrete Idle agent with one queued move, used by the C1 witness. -/
def cIdleAgent : Agent :=
  ⟨"s1", [AgentAction.MoveTo (5, 5, 5) 7], AgentState.Idle 0, none, none⟩

/-- Concrete Moving agent at progress 0, used by the C1 witness. -/
def cMovingAgent : Agent :=
  ⟨"s1", [], AgentState.Moving (0, 0, 0) (5, 5, 5) 0 7, none, none⟩

/-- Witness for C1: the three behaviours at concrete agents (pop-and-move at
`dt = 1`; progress `0 → 1/2` at `dt = 3/5`; arrival emitting `[7]` at
`dt = 6/5`). -/
theorem c1_idle_move_arrive_witness :
    agent_state_machine 1 (0, 0, 0) cIdleAgent =
      ({ cIdleAgent with
          event_queue := [],
          current_target_file := some 7,
          state := .Moving (0, 0, 0) (5, 5, 5) 0 7 }, []) ∧
    (agent_state_machine (3/5) (0, 0, 0) cMovingAgent =
      ({ cMovingAgent with
          state := .Moving (0, 0, 0) (5, 5, 5) (0 + (3/5) / MOVE_SPEED) 7 }, []) ∧
      (0:ℚ) ≤ 0 + (3/5) / MOVE_SPEED) ∧
    agent_state_machine (6/5) (0, 0, 0) cMovingAgent =
      ({ cMovingAgent with current_target_file := some 7, state := .Idle 0 },
        [7]) :=
  ⟨c1_idle_move_arrive.1 1 (0, 0, 0) cIdleAgent 0 (5, 5, 5) 7 [] rfl rfl,
    c1_idle_move_arrive.2.1 (3/5) (0, 0, 0) cMovingAgent (0, 0, 0) (5, 5, 5) 0 7
      rfl (by norm_num) (by norm_num [MOVE_SPEED]),
    c1_idle_move_arrive.2.2 (6/5) (0, 0, 0) cMovingAgent (0, 0, 0) (5, 5, 5) 0 7
      rfl (by norm_num [MOVE_SPEED])⟩

/-! ## WebSocket event processing (`frontend/src/agent.rs`, `process_ws_events`)

The event enum follows ws_client.rs and the fields agent.rs consumes (the
`timestamp` there is optional). `file_path` is carried as an already-parsed
component list; `PathBuf::canonicalize` touches the filesystem and falls back
to the original path on failure, which is embedded as the identity. -/

/-- Embedding of `AgentEvent` (ws_client.rs lines 8-23, fields as consumed by
agent.rs lines 204, 228-233). -/
inductive AgentEvent where
  | SessionStart (session_id cwd model_name : String)
  | ToolUse (session_id tool_name : String) (file_path : FsPath)
      (timestamp : Option String)
  deriving DecidableEq, Repr

/-- Embedding of `FileEvent` (agent.rs lines 50-55). -/
structure FileEvent where
  tool_name : String
  session_id : String
  timestamp : Option String
  deriving DecidableEq, Repr

/-- Embedding of `AgentState::Despawning`-membership tests written with
`matches!` in the source. -/
def AgentState.isDespawning : AgentState → Bool
  | .Despawning _ => true
  | _ => false

/-- Embedding of the `action_desc` format string (agent.rs lines 246-256). -/
def action_desc (tool_name filename : String) : String :=
  (match tool_name with
   | "Read" => "Reading"
   | "Write" => "Writing"
   | "Edit" => "Editing"
   | "Grep" => "Searching"
   | "Glob" => "Finding"
   | _ => "Working on") ++ " " ++ filename

/-- Embedding of `spawn_agent_entity`'s `Agent` component (agent.rs lines
143-189; transform/scene/light children are rendering-only). -/
def spawned_agent (session_id : String) (event_queue : List AgentAction) :
    Agent :=
  ⟨session_id, event_queue, .Spawning 0, none, none⟩

/-- Combined mutable state touched by `process_ws_events`: the read-only
filesystem model, the `AgentRegistry` session→entity map, the ECS `Agent`
components by entity id, the `FileEventHistory`, and the fresh-entity
counter standing for `Commands::spawn`. -/
structure World where
  model : FileSystemModel
  registry : List (String × Nat)
  agents : List (Nat × Agent)
  history : List (Nat × List FileEvent)
  next_entity : Nat
  deriving Repr

/-- Embedding of one iteration of the `process_ws_events` drain loop
(agent.rs lines 193-328) on one already-received event. `posOf` stands for
`calculate_galaxy_position` (pure geometry, irrelevant to the claims). A
`Commands`-spawned agent entity is inserted immediately but, as in Bevy, the
trailing `agents.get_mut` of the auto-spawn path does not see it within the
same system run, so that assignment is skipped there. -/
def process_ws_event (posOf : Nat → V3) (w : World) (e : AgentEvent) : World :=
  match e with
  | .SessionStart session_id _ _ =>
    match lookupA w.registry session_id with
    | some entity =>
      match lookupA w.agents entity with
      | some agent =>
        if agent.state.isDespawning then
          { w with
              agents := insertA w.agents entity { agent with state := .Idle 0 } }
        else w
      | none => w
    | none =>
      let entity := w.next_entity
      { w with
          agents := insertA w.agents entity (spawned_agent session_id []),
          registry := insertA w.registry session_id entity,
          next_entity := entity + 1 }
  | .ToolUse session_id tool_name file_path timestamp =>
    let filename := (fileName file_path).getD ""
    let desc := action_desc tool_name filename
    match w.model.get_node_by_path file_path with
    | some (node_idx, _) =>
      let position := posOf node_idx
      let events0 := (lookupA w.history node_idx).getD []
      let events1 := events0 ++ [⟨tool_name, session_id, timestamp⟩]
      let events2 := if events1.length > 10 then events1.drop 1 else events1
      let history1 := insertA w.history node_idx events2
      match lookupA w.registry session_id with
      | some entity =>
        let agents1 :=
          match lookupA w.agents entity with
          | some agent =>
            let agent1 :=
              if agent.state.isDespawning then { agent with state := .Idle 0 }
              else agent
            insertA w.agents entity
              { agent1 with
                  event_queue :=
                    agent1.event_queue ++ [.MoveTo position node_idx],
                  current_action := some desc }
          | none => w.agents
        let agents2 :=
          match lookupA agents1 entity with
          | some agent =>
              insertA agents1 entity { agent with current_action := some desc }
          | none => agents1
        { w with history := history1, agents := agents2 }
      | none =>
        let entity := w.next_entity
        { w with
            history := history1,
            agents := insertA w.agents entity
              (spawned_agent session_id [.MoveTo position node_idx]),
            registry := insertA w.registry session_id entity,
            next_entity := entity + 1 }
    | none => w

theorem process_tooluse_unresolved (posOf : Nat → V3) (w : World)
    (sid tool : String) (fp : FsPath) (ts : Option String)
    (h : w.model.get_node_by_path fp = none) :
    process_ws_event posOf w (.ToolUse sid tool fp ts) = w := by
  simp only [process_ws_event, h]

theorem process_sessionstart_history (posOf : Nat → V3) (w : World)
    (sid c mo : String) :
    (process_ws_event posOf w (.SessionStart sid c mo)).history = w.history := by
  unfold process_ws_event
  cases hr : lookupA w.registry sid with
  | some ent =>
    cases ha : lookupA w.agents ent with
    | some a => by_cases hd : a.state.isDespawning <;> simp [hr, ha, hd]
    | none => simp [hr, ha]
  | none => simp [hr]

theorem process_tooluse_history (posOf : Nat → V3) (w : World)
    (sid tool : String) (fp : FsPath) (ts : Option String) (ni : Nat)
    (nd : FileNode) (hres : w.model.get_node_by_path fp = some (ni, nd)) :
    (process_ws_event posOf w (.ToolUse sid tool fp ts)).history =
      insertA w.history ni
        (if ((lookupA w.history ni).getD []
              ++ [FileEvent.mk tool sid ts]).length > 10
         then ((lookupA w.history ni).getD [] ++ [FileEvent.mk tool sid ts]).drop 1
         else (lookupA w.history ni).getD [] ++ [FileEvent.mk tool sid ts]) := by
  unfold process_ws_event
  simp only [hres]
  cases hr : lookupA w.registry sid <;> simp [hr]

/-- C5: a `ToolUse` event whose file path does not resolve in the filesystem
model changes nothing at all — no history entry, no queued move, no agent, no
registry entry (the event is only logged and dropped). -/
theorem c5_unresolved_tooluse_dropped (posOf : Nat → V3) (w : World)
    (sid tool : String) (fp : FsPath) (ts : Option String)
    (h : w.model.get_node_by_path fp = none) :
    process_ws_event posOf w (.ToolUse sid tool fp ts) = w :=
  process_tooluse_unresolved posOf w sid tool fp ts h

/-- Concrete `calculate_galaxy_position` stand-in for witnesses. -/
def cPosOf : Nat → V3 := fun _ => (0, 0, 0)

/-- Empty world (empty model, no agents) used by the C5 witness. -/
def cEmptyWorld : World := ⟨FileSystemModel.new, [], [], [], 0⟩

/-- Witness for C5: a `ToolUse` on a path absent from the empty model. -/
theorem c5_unresolved_tooluse_dropped_witness :
    process_ws_event cPosOf cEmptyWorld
      (.ToolUse "s1" "Read" ["x"] none) = cEmptyWorld :=
  c5_unresolved_tooluse_dropped cPosOf cEmptyWorld "s1" "Read" ["x"] none rfl

theorem process_history_bound (posOf : Nat → V3) (w : World) (e : AgentEvent)
    (hw : ∀ (n : Nat) (l : List FileEvent),
      lookupA w.history n = some l → l.length ≤ 10) :
    ∀ (n : Nat) (l : List FileEvent),
      lookupA (process_ws_event posOf w e).history n = some l →
      l.length ≤ 10 := by
  cases e with
  | SessionStart sid c mo =>
    rw [process_sessionstart_history]
    exact hw
  | ToolUse sid tool fp ts =>
    cases hres : w.model.get_node_by_path fp with
    | none =>
      rw [process_tooluse_unresolved posOf w sid tool fp ts hres]
      exact hw
    | some pair =>
      obtain ⟨ni, nd⟩ := pair
      rw [process_tooluse_history posOf w sid tool fp ts ni nd hres]
      intro n l hl
      by_cases hn : n = ni
      · subst hn
        rw [lookupA_insertA_self] at hl
        have hold : ((lookupA w.history n).getD [] : List FileEvent).length ≤ 10 := by
          cases hc : lookupA w.history n with
          | none => simp
          | some l0 =>
            simpa using hw n l0 hc
        by_cases hlen : (((lookupA w.history n).getD []
            ++ [FileEvent.mk tool sid ts] : List FileEvent)).length > 10
        · rw [if_pos hlen] at hl
          injection hl with hl
          subst hl
          simp only [List.length_drop, List.length_append]
          simp
          omega
        · rw [if_neg hlen] at hl
          injection hl with hl
          subst hl
          omega
      · rw [lookupA_insertA_ne _ _ _ _ hn] at hl
        exact hw n l hl

/-- C7: (i) starting from any world whose per-node histories hold at most 10
entries (in particular the initial empty history), any sequence of events
keeps every node's history at or below 10 entries; (ii) appending to a
history already holding exactly 10 entries drops the front (oldest) entry
only, keeping the relative order of the survivors and appending the new
entry at the back. -/
theorem c7_history_cap_and_evict :
    (∀ (posOf : Nat → V3) (events : List AgentEvent) (w0 : World),
      (∀ (n : Nat) (l : List FileEvent),
        lookupA w0.history n = some l → l.length ≤ 10) →
      ∀ (n : Nat) (l : List FileEvent),
        lookupA (events.foldl (process_ws_event posOf) w0).history n = some l →
        l.length ≤ 10) ∧
    (∀ (posOf : Nat → V3) (w : World) (sid tool : String) (fp : FsPath)
        (ts : Option String) (ni : Nat) (nd : FileNode) (l : List FileEvent),
      w.model.get_node_by_path fp = some (ni, nd) →
      lookupA w.history ni = some l → l.length = 10 →
      lookupA (process_ws_event posOf w (.ToolUse sid tool fp ts)).history ni
        = some (l.drop 1 ++ [FileEvent.mk tool sid ts])) := by
  constructor
  · intro posOf events
    induction events with
    | nil => intro w0 hw n l hl; exact hw n l hl
    | cons e es ih =>
      intro w0 hw
      simp only [List.foldl_cons]
      exact ih _ (process_history_bound posOf w0 e hw)
  · intro posOf w sid tool fp ts ni nd l hres hl hlen
    rw [process_tooluse_history posOf w sid tool fp ts ni nd hres]
    rw [lookupA_insertA_self, hl]
    have hgt : ((some l).getD [] ++ [FileEvent.mk tool sid ts]).length > 10 := by
      simp [hlen]
    rw [if_pos hgt]
    have hdrop : ((some l).getD [] ++ [FileEvent.mk tool sid ts]).drop 1
        = l.drop 1 ++ [FileEvent.mk tool sid ts] := by
      simp only [Option.getD_some]
      rw [List.drop_append_of_le_length]
      omega
    rw [hdrop]

/-- Model indexing the single path `["x"]`, used by event-processing
witnesses. -/
def cModelX : FileSystemModel := (FileSystemModel.new.add_node ["x"] false).1

/-- Ten-entry history list used by the C7 witness. -/
def cTen : List FileEvent := List.replicate 10 ⟨"Read", "s0", none⟩

/-- World holding a full 10-entry history for node 0, used by the C7
witness. -/
def cWorldHist : World := ⟨cModelX, [], [], [(0, cTen)], 0⟩

/-- Witness for C7 at a concrete world: one more resolved `ToolUse` keeps the
history at 10 entries and evicts exactly the front entry. -/
theorem c7_history_cap_and_evict_witness :
    (∀ (n : Nat) (l : List FileEvent),
      lookupA ([AgentEvent.ToolUse "s1" "Read" ["x"] none].foldl
        (process_ws_event cPosOf) cWorldHist).history n = some l →
      l.length ≤ 10) ∧
    lookupA (process_ws_event cPosOf cWorldHist
        (.ToolUse "s1" "Read" ["x"] none)).history 0
      = some (cTen.drop 1 ++ [FileEvent.mk "Read" "s1" none]) :=
  ⟨c7_history_cap_and_evict.1 cPosOf [AgentEvent.ToolUse "s1" "Read" ["x"] none]
      cWorldHist
      (fun n l h => by
        by_cases hn : (0 : Nat) = n
        · rw [show cWorldHist.history = [(0, cTen)] from rfl] at h
          simp only [lookupA, if_pos hn] at h
          injection h with h
          subst h
          decide
        · rw [show cWorldHist.history = [(0, cTen)] from rfl] at h
          simp only [lookupA, if_neg hn] at h
          cases h),
    c7_history_cap_and_evict.2 cPosOf cWorldHist "s1" "Read" ["x"] none 0
      ⟨["x"], "x", false, 0, [], none⟩ cTen (by decide) rfl (by decide)⟩

/-- C3 (amended): a `SessionStart` — or a `ToolUse` whose file path resolves
in the filesystem model — arriving for a session whose registered agent is
Despawning reverts that agent to `Idle{timer: 0}` in place: the registry is
untouched, no entity is spawned, and the same entry still maps the session
to the same agent; a duplicate `SessionStart` for a non-Despawning agent
changes nothing.  (A `ToolUse` whose path does NOT resolve is dropped before
the despawn-cancel, so the claim's unconditional `ToolUse` clause fails — see
the counterexample.) -/
theorem c3_despawn_cancelled :
    (∀ (posOf : Nat → V3) (w : World) (sid c mo : String) (ent : Nat)
        (a : Agent) (t : ℚ),
      lookupA w.registry sid = some ent → lookupA w.agents ent = some a →
      a.state = .Despawning t →
      process_ws_event posOf w (.SessionStart sid c mo) =
        { w with
            agents := insertA w.agents ent { a with state := .Idle 0 } }) ∧
    (∀ (posOf : Nat → V3) (w : World) (sid tool : String) (fp : FsPath)
        (ts : Option String) (ent ni : Nat) (nd : FileNode) (a : Agent) (t : ℚ),
      lookupA w.registry sid = some ent → lookupA w.agents ent = some a →
      a.state = .Despawning t →
      w.model.get_node_by_path fp = some (ni, nd) →
      (process_ws_event posOf w (.ToolUse sid tool fp ts)).registry
          = w.registry ∧
      (process_ws_event posOf w (.ToolUse sid tool fp ts)).next_entity
          = w.next_entity ∧
      ∃ a' : Agent,
        lookupA (process_ws_event posOf w (.ToolUse sid tool fp ts)).agents ent
            = some a' ∧
        a'.state = .Idle 0 ∧ a'.session_id = a.session_id) ∧
    (∀ (posOf : Nat → V3) (w : World) (sid c mo : String) (ent : Nat)
        (a : Agent),
      lookupA w.registry sid = some ent → lookupA w.agents ent = some a →
      (∀ t : ℚ, a.state ≠ .Despawning t) →
      process_ws_event posOf w (.SessionStart sid c mo) = w) := by
  refine ⟨?_, ?_, ?_⟩
  · intro posOf w sid c mo ent a t h1 h2 hst
    have hd : a.state.isDespawning = true := by
      rw [hst]; rfl
    simp only [process_ws_event, h1, h2, hd, if_true]
  · intro posOf w sid tool fp ts ent ni nd a t h1 h2 hst hres
    have hd : a.state.isDespawning = true := by
      rw [hst]; rfl
    simp only [process_ws_event, h1, h2, hd, hres, if_true,
      lookupA_insertA_self]
    exact ⟨trivial, trivial, _, rfl, rfl, rfl⟩
  · intro posOf w sid c mo ent a h1 h2 hnd
    have hd : a.state.isDespawning = false := by
      cases hs : a.state with
      | Despawning t => exact absurd hs (hnd t)
      | Spawning t => rfl
      | Idle t => rfl
      | Moving f g pr ni => rfl
    simp only [process_ws_event, h1, h2, hd, Bool.false_eq_true, if_false]

/-- Concrete despawning agent for the C3 counterexample and witness. -/
def cDespAgent : Agent := ⟨"s1", [], .Despawning 0, none, none⟩

/-- World whose only agent is despawning and whose model is empty (so no
path resolves). -/
def cWorldDesp : World :=
  ⟨FileSystemModel.new, [("s1", 0)], [(0, cDespAgent)], [], 1⟩

/-- World whose only agent is despawning and whose model indexes `["x"]`. -/
def cWorldDespX : World := ⟨cModelX, [("s1", 0)], [(0, cDespAgent)], [], 1⟩

/-- World registering a non-despawning (Idle) agent for session `s2`. -/
def cIdleRegWorld : World :=
  ⟨FileSystemModel.new, [("s2", 0)], [(0, cIdleAgent)], [], 1⟩

/-- C3 as stated is false for `ToolUse`: a `ToolUse` whose path does not
resolve arrives for session `s1` whose registered agent is Despawning, and
processing leaves the world — in particular the agent's state — completely
unchanged instead of setting it to `Idle{timer: 0}`. -/
theorem c3_counterexample :
    lookupA cWorldDesp.registry "s1" = some 0 ∧
    lookupA cWorldDesp.agents 0 = some cDespAgent ∧
    cDespAgent.state = AgentState.Despawning 0 ∧
    process_ws_event cPosOf cWorldDesp
      (.ToolUse "s1" "Read" ["x"] none) = cWorldDesp ∧
    AgentState.Despawning 0 ≠ AgentState.Idle 0 := by
  refine ⟨by decide, by decide, rfl, ?_, by decide⟩
  exact process_tooluse_unresolved cPosOf cWorldDesp "s1" "Read" ["x"] none rfl

/-- Witness for the amended C3: despawn cancel by `SessionStart`, despawn
cancel by a resolving `ToolUse`, and a no-op duplicate `SessionStart`. -/
theorem c3_despawn_cancelled_witness :
    process_ws_event cPosOf cWorldDesp (.SessionStart "s1" "/w" "m") =
      { cWorldDesp with
          agents := insertA cWorldDesp.agents 0
            { cDespAgent with state := .Idle 0 } } ∧
    (∃ a' : Agent,
      lookupA (process_ws_event cPosOf cWorldDespX
          (.ToolUse "s1" "Read" ["x"] none)).agents 0 = some a' ∧
      a'.state = .Idle 0 ∧ a'.session_id = cDespAgent.session_id) ∧
    process_ws_event cPosOf cIdleRegWorld (.SessionStart "s2" "/w" "m")
      = cIdleRegWorld :=
  ⟨c3_despawn_cancelled.1 cPosOf cWorldDesp "s1" "/w" "m" 0 cDespAgent 0
      (by decide) (by decide) rfl,
    (c3_despawn_cancelled.2.1 cPosOf cWorldDespX "s1" "Read" ["x"] none 0 0
      ⟨["x"], "x", false, 0, [], none⟩ cDespAgent 0
      (by decide) (by decide) rfl (by decide)).2.2,
    c3_despawn_cancelled.2.2 cPosOf cIdleRegWorld "s2" "/w" "m" 0 cIdleAgent
      (by decide) (by decide) (fun t h => AgentState.noConfusion h)⟩
